import Mathlib

/-!
Verification development for the interval-exchange constructors module of
`surface_dynamics` (file `surface_dynamics/interval_exchanges/constructors.py`).

The module under scrutiny is the front door of the interval-exchange
machinery: constructors for permutations (`Permutation`,
`GeneralizedPermutation`), Rauzy diagrams (`RauzyDiagram`) and numeric
interval exchange transformations (`IntervalExchangeTransformation`).
The combinatorial engines they return (Rauzy induction, path matrices,
orbit substitutions, the numeric IET runtime and the labelled/reduced
permutation classes) live in sibling modules that are not part of the
source under review; those parts are modelled from the specification, and
each such definition is marked `Modelled from the spec:` in its doc
comment.  Everything else is translated directly from the Python source.
-/

namespace SurfaceDynamics

/-- Modelled from the spec: the two-row combinatorial datum of a permutation
(IET kind or generalized kind).  The concrete classes
(`LabelledPermutationIET` and friends) are outside the reviewed source; the
spec describes them as "two ordered sequences (top, bottom)" of labels. -/
structure Perm (A : Type) where
  top : List A
  bottom : List A
deriving DecidableEq, Repr

/-- Modelled from the spec: the two right-induction move kinds, winner on the
top row or winner on the bottom row. -/
inductive Move : Type where
  | top : Move
  | bottom : Move
deriving DecidableEq, Repr

variable {A : Type} [DecidableEq A]

/-- Insert `l` immediately after the first occurrence of `w`; if `w` does not
occur, `l` is appended at the end (that case is never reached on valid
permutations). -/
def insertAfter (w l : A) : List A → List A
  | [] => [l]
  | x :: xs => if x = w then x :: l :: xs else x :: insertAfter w l xs

/-- Insert `l` immediately before the first occurrence of `w`; if `w` does not
occur, `l` is appended at the end (that case is never reached on valid
permutations). -/
def insertBefore (w l : A) : List A → List A
  | [] => [l]
  | x :: xs => if x = w then l :: x :: xs else x :: insertBefore w l xs

/-- Modelled from the spec: the winner/loser pair of a right induction move.
The winner is the rightmost letter of the row named by the move, the loser the
rightmost letter of the other row; the move is undefined (`none`) when the two
rightmost letters coincide or a row is empty. -/
def movePre (p : Perm A) (m : Move) : Option (A × A) :=
  p.top.getLast?.bind fun t =>
    p.bottom.getLast?.bind fun b =>
      if t = b then none
      else
        match m with
        | .top => some (t, b)
        | .bottom => some (b, t)

/-- Modelled from the spec: the combinatorial effect of a right induction move
on an IET-kind permutation.  The winner's row is unchanged; the loser is
removed from the right end of its row and reinserted immediately past the
winner's occurrence in that same row. -/
def applyMove (p : Perm A) (m : Move) (w l : A) : Perm A :=
  match m with
  | .top => ⟨p.top, insertAfter w l p.bottom.dropLast⟩
  | .bottom => ⟨insertAfter w l p.top.dropLast, p.bottom⟩

/-- Modelled from the spec: one Rauzy induction step on an IET-kind
permutation (`rauzy_move` of the permutation classes), failing when the move
is degenerate. -/
def rauzy_move (p : Perm A) (m : Move) : Option (Perm A) :=
  (movePre p m).map fun wl => applyMove p m wl.1 wl.2

section MatrixOps

variable [Fintype A]

/-- Modelled from the spec: the elementary transition matrix of one induction
step, the identity with one extra unit in the winner's row at the loser's
column.  (The source's doctest `rauzy_move_matrix('top')` on `a b / b a`
returns `[[1,0],[1,1]]`, fixing the `[winner][loser]` convention.) -/
def elemMatrix (w l : A) : Matrix A A ℤ :=
  1 + Matrix.stdBasisMatrix w l 1

/-- Modelled from the spec: the one-step substitution attached to an edge.
The loser's image becomes the concatenation of loser and winner, appended for
top moves and prepended for bottom moves; other letters are fixed. -/
def edgeSubst (m : Move) (w l : A) : A → List A := fun y =>
  if y = l then
    match m with
    | .top => [l, w]
    | .bottom => [w, l]
  else [y]

/-- Modelled from the spec: the data accumulated along a path of a Rauzy
diagram: final vertex, path matrix (ordered product of elementary matrices),
orbit substitution, and the set of losing letters (used by `is_full`). -/
structure PathData (A : Type) [DecidableEq A] [Fintype A] where
  vertex : Perm A
  matrix : Matrix A A ℤ
  subst : A → List A
  losers : Finset A

/-- Modelled from the spec: walking a path given by a list of move kinds from
a start permutation, accumulating `matrix` (product of the elementary matrices
in path order), `orbit_substitution` (composition of the edge substitutions,
the earliest edge applied last) and the loser set.  Fails if some move along
the way is degenerate. -/
def pathData (p : Perm A) : List Move → Option (PathData A)
  | [] => some ⟨p, 1, fun y => [y], ∅⟩
  | m :: ms =>
    (movePre p m).bind fun wl =>
      (pathData (applyMove p m wl.1 wl.2) ms).map fun d =>
        ⟨d.vertex, elemMatrix wl.1 wl.2 * d.matrix,
         fun y => (d.subst y).flatMap (edgeSubst m wl.1 wl.2),
         insert wl.2 d.losers⟩

/-- Modelled from the spec: the incidence matrix of a substitution, counting
occurrences of each letter in the image of each letter. -/
def incidence (σ : A → List A) : Matrix A A ℤ :=
  Matrix.of fun x y => ((σ y).count x : ℤ)

lemma count_flatMap_eq_sum (σ : A → List A) (x : A) (l : List A) :
    ((l.flatMap σ).count x : ℤ) = ∑ z : A, ((σ z).count x : ℤ) * (l.count z : ℤ) := by
  induction l with
  | nil => simp
  | cons a l ih =>
    rw [List.flatMap_cons, List.count_append]
    push_cast
    rw [ih]
    have key : ∀ z : A, ((σ z).count x : ℤ) * (((a :: l).count z : ℕ) : ℤ) =
        (if z = a then ((σ z).count x : ℤ) else 0) +
          ((σ z).count x : ℤ) * (l.count z : ℤ) := by
      intro z
      rw [List.count_cons]
      by_cases hz : z = a
      · subst hz
        simp only [beq_self_eq_true, if_true, eq_self_iff_true]
        push_cast
        ring
      · simp only [beq_iff_eq]
        rw [if_neg (Ne.symm hz), if_neg hz]
        push_cast
        ring
    rw [Finset.sum_congr rfl fun z _ => key z, Finset.sum_add_distrib,
      Finset.sum_ite_eq' Finset.univ a fun z => ((σ z).count x : ℤ)]
    simp

lemma incidence_comp (σ τ : A → List A) :
    incidence (fun y => (τ y).flatMap σ) = incidence σ * incidence τ := by
  ext x y
  rw [Matrix.mul_apply]
  simp only [incidence, Matrix.of_apply]
  exact count_flatMap_eq_sum σ x (τ y)

lemma incidence_id : incidence (fun y => ([y] : List A)) = 1 := by
  ext x y
  simp only [incidence, Matrix.of_apply, Matrix.one_apply, List.count_singleton']
  by_cases h : x = y <;> simp [h, eq_comm]

lemma count_pair (x u v : A) :
    List.count x [u, v] = (if u = x then 1 else 0) + (if v = x then 1 else 0) := by
  by_cases hu : u = x <;> by_cases hv : v = x <;>
    simp [List.count_cons, List.count_nil, hu, hv]

lemma count_single (x u : A) :
    List.count x [u] = if u = x then 1 else 0 := by
  by_cases hu : u = x <;> simp [List.count_cons, List.count_nil, hu]

lemma stdBasisMatrix_apply_entry (w l x y : A) :
    Matrix.stdBasisMatrix w l (1 : ℤ) x y = if x = w ∧ y = l then 1 else 0 := by
  simp only [Matrix.stdBasisMatrix, Matrix.of_apply]
  by_cases hx : x = w <;> by_cases hy : y = l <;> simp [hx, hy] <;> tauto

lemma incidence_edgeSubst (m : Move) (w l : A) :
    incidence (edgeSubst m w l) = elemMatrix w l := by
  ext x y
  simp only [incidence, Matrix.of_apply, elemMatrix, Matrix.add_apply, Matrix.one_apply]
  rw [stdBasisMatrix_apply_entry]
  by_cases hy : y = l
  · subst hy
    cases m with
    | top =>
      have h1 : edgeSubst Move.top w y y = [y, w] := by simp [edgeSubst]
      rw [h1, count_pair]
      by_cases hx : x = y
      · subst hx
        by_cases hw : x = w
        · subst hw; simp
        · simp [hw, Ne.symm hw]
      · by_cases hw : x = w
        · subst hw; simp [hx, Ne.symm hx]
        · simp [hx, hw, Ne.symm hx, Ne.symm hw]
    | bottom =>
      have h1 : edgeSubst Move.bottom w y y = [w, y] := by simp [edgeSubst]
      rw [h1, count_pair]
      by_cases hx : x = y
      · subst hx
        by_cases hw : x = w
        · subst hw; simp
        · simp [hw, Ne.symm hw]
      · by_cases hw : x = w
        · subst hw; simp [hx, Ne.symm hx]
        · simp [hx, hw, Ne.symm hx, Ne.symm hw]
  · have h1 : edgeSubst m w l y = [y] := by cases m <;> simp [edgeSubst, hy]
    rw [h1, count_single]
    by_cases hx : x = y
    · subst hx; simp [hy]
    · simp [hx, hy, Ne.symm hx]

/-- C1: for every path `g` in a Rauzy diagram (given by a start permutation and
a list of right-induction move kinds along which every move is defined), the
incidence matrix of the word morphism returned by `orbit_substitution(g)` is
entrywise equal, as an integer matrix, to the matrix returned by `matrix(g)`. -/
theorem orbit_substitution_incidence_eq_matrix (ms : List Move) (p : Perm A)
    (d : PathData A) (h : pathData p ms = some d) :
    incidence d.subst = d.matrix := by
  induction ms generalizing p d with
  | nil =>
    simp only [pathData, Option.some.injEq] at h
    subst h
    exact incidence_id
  | cons m ms ih =>
    simp only [pathData] at h
    cases hpre : movePre p m with
    | none => rw [hpre] at h; simp at h
    | some wl =>
      rw [hpre, Option.some_bind] at h
      cases hrec : pathData (applyMove p m wl.1 wl.2) ms with
      | none => rw [hrec] at h; simp at h
      | some d' =>
        rw [hrec] at h
        have h2 := Option.some.inj h
        subst h2
        have hd' := ih (applyMove p m wl.1 wl.2) d' hrec
        exact (incidence_comp (edgeSubst m wl.1 wl.2) d'.subst).trans
          (by rw [incidence_edgeSubst, hd'])

/-- The path data of the six-edge full loop from the source's doctest
(`a b c / c b a`, moves t b t b t b), whose matrix is
`[[1,1,1],[2,4,1],[2,3,2]]`. -/
def doctestLoop : PathData (Fin 3) :=
  (pathData (⟨[0, 1, 2], [2, 1, 0]⟩ : Perm (Fin 3))
    [Move.top, Move.bottom, Move.top, Move.bottom, Move.top, Move.bottom]).get (by decide)

/-- Witness for C1: the six-edge full loop from the source's doctest has
incidence matrix equal to its path matrix. -/
theorem orbit_substitution_incidence_eq_matrix_witness :
    pathData (⟨[0, 1, 2], [2, 1, 0]⟩ : Perm (Fin 3))
      [Move.top, Move.bottom, Move.top, Move.bottom, Move.top, Move.bottom] = some doctestLoop ∧
    incidence doctestLoop.subst = doctestLoop.matrix :=
  ⟨(Option.some_get (by decide)).symm,
   orbit_substitution_incidence_eq_matrix _ _ _ (Option.some_get (by decide)).symm⟩

end MatrixOps

/-! ## Rauzy moves on generalized permutations and the Rauzy diagram (C3) -/

/-- Modelled from the spec: one right Rauzy induction step on a generalized
(linear involution) permutation, the `rauzy_move` of the `PermutationLI`
classes.  The winner is the rightmost letter of its row, the loser the
rightmost letter of the other row, which is removed from the right end and
reinserted next to the winner's other occurrence: immediately after it when
that occurrence lies in the opposite row (orientation-preserving
identification, as in the IET move of §4.2), immediately before it when it
lies in the winner's own row (orientation-reversing identification). -/
def rauzy_move_gen (p : Perm ℕ) (m : Move) : Option (Perm ℕ) :=
  (movePre p m).map fun wl =>
    match m with
    | .top =>
      if wl.1 ∈ p.top.dropLast then ⟨insertBefore wl.1 wl.2 p.top, p.bottom.dropLast⟩
      else ⟨p.top, insertAfter wl.1 wl.2 p.bottom.dropLast⟩
    | .bottom =>
      if wl.1 ∈ p.bottom.dropLast then ⟨p.top.dropLast, insertBefore wl.1 wl.2 p.bottom⟩
      else ⟨insertAfter wl.1 wl.2 p.top.dropLast, p.bottom⟩

/-- The rows of a generalized permutation with the letters that occur exactly
once in each row deleted; from the source's `GeneralizedPermutation`
constructor (the deletion loop triggers on letters whose count in the top row
is one). -/
def strippedRows (t b : List ℕ) : List ℕ × List ℕ :=
  (t.filter fun x => t.count x ≠ 1, b.filter fun x => t.count x ≠ 1)

/-- A generalized permutation admits positive interval lengths exactly when
deleting the letters occurring once in each row does not leave exactly one
empty row; from the source's "no admissible length" test. -/
def admissible (p : Perm ℕ) : Bool :=
  ((strippedRows p.top p.bottom).1.isEmpty == (strippedRows p.top p.bottom).2.isEmpty)

/-- Modelled from the spec: the neighbours of a vertex of a Rauzy diagram
generated by right induction only: the results of the defined, admissible
right Rauzy moves. -/
def rdNeighbors (p : Perm ℕ) : List (Perm ℕ) :=
  [Move.top, Move.bottom].filterMap fun m =>
    match rauzy_move_gen p m with
    | some q => if admissible q then some q else none
    | none => none

/-- Modelled from the spec: breadth-first closure of a seed vertex set under a
neighbour function, with explicit fuel (the diagrams involved are finite). -/
def bfsClosure (f : Perm ℕ → List (Perm ℕ)) : ℕ → List (Perm ℕ) → List (Perm ℕ) → List (Perm ℕ)
  | 0, vis, _ => vis
  | _ + 1, vis, [] => vis
  | fuel + 1, vis, q :: queue =>
    let step := (f q).foldl
      (fun acc r => if acc.1.contains r then acc else (acc.1 ++ [r], acc.2 ++ [r]))
      (vis, ([] : List (Perm ℕ)))
    bfsClosure f fuel step.1 (queue ++ step.2)

/-- Modelled from the spec: the vertex set of the labelled Rauzy diagram of a
seed permutation under right induction. -/
def rauzyDiagramVertices (seed : Perm ℕ) : List (Perm ℕ) :=
  bfsClosure rdNeighbors 64 [seed] [seed]

/-- The first-occurrence order of the letters of a list. -/
def firstOccs (l : List ℕ) : List ℕ :=
  l.foldl (fun acc x => if x ∈ acc then acc else acc ++ [x]) []

/-- Modelled from the spec: the canonical representative of the relabeling
class of a permutation: letters are renamed by their first occurrence when the
top row is scanned and then the bottom row. -/
def canonical (p : Perm ℕ) : Perm ℕ :=
  ⟨p.top.map (fun x => (firstOccs (p.top ++ p.bottom)).indexOf x),
   p.bottom.map (fun x => (firstOccs (p.top ++ p.bottom)).indexOf x)⟩

/-- Modelled from the spec: the neighbours of a vertex of a reduced Rauzy
diagram: canonical forms of the labelled neighbours of a representative. -/
def rdNeighborsRed (p : Perm ℕ) : List (Perm ℕ) :=
  (rdNeighbors p).map canonical

/-- Modelled from the spec: the vertex set of the reduced Rauzy diagram of a
seed permutation under right induction. -/
def rauzyDiagramVerticesRed (seed : Perm ℕ) : List (Perm ℕ) :=
  bfsClosure rdNeighborsRed 64 [canonical seed] [canonical seed]

/-- C3: building a Rauzy diagram from seed rows `a b b` / `c c a` (letters
coded 0, 1, 2) with only right induction enabled yields a diagram with exactly
12 vertices in labelled mode and exactly 4 vertices in reduced mode. -/
theorem rauzyDiagram_abb_cca_cardinalities :
    (rauzyDiagramVertices ⟨[0, 1, 1], [2, 2, 0]⟩).length = 12 ∧
    (rauzyDiagramVerticesRed ⟨[0, 1, 1], [2, 2, 0]⟩).length = 4 :=
  ⟨rfl, rfl⟩

/-! ## The constructors of the source file (C5, C6, C9, C10) -/

/-- The validation errors of the permutation constructors, named after the
spec's error kinds.  `invalidFlipLetter` is "flips contains not valid
letters", `letterMultiplicity` is "letters must appear once in each
interval", `lettersTwice` is "letters must appear twice" and
`noAdmissibleLength` is "no admissible length". -/
inductive PermError : Type where
  | invalidFlipLetter : PermError
  | letterMultiplicity : PermError
  | lettersTwice : PermError
  | noAdmissibleLength : PermError
deriving DecidableEq, Repr

/-- The per-letter multiplicity check of the `Permutation` constructor
(source lines 399-401): every letter must appear exactly once in each row. -/
def checkMultiplicityIET (t b : List ℕ) (fl : Option (List ℕ)) :
    Except PermError (Perm ℕ × Option (List ℕ)) :=
  if (t ++ b).all (fun x => t.count x == 1 && b.count x == 1) then .ok (⟨t, b⟩, fl)
  else .error .letterMultiplicity

/-- The `Permutation` constructor of the source file restricted to its
combinatorial core: two label rows and an optional flip list (row parsing and
the alphabet are out of scope per the spec).  Empty flip lists are normalized
to `none` (source lines 390-393), flip letters are validated before the
multiplicity check (lines 394-401). -/
def Permutation (t b : List ℕ) (flips : Option (List ℕ)) :
    Except PermError (Perm ℕ × Option (List ℕ)) :=
  let flips1 : Option (List ℕ) :=
    match flips with
    | some [] => none
    | f => f
  match flips1 with
  | some fl =>
    if fl.all (fun x => decide (x ∈ t ++ b)) then checkMultiplicityIET t b (some fl)
    else .error .invalidFlipLetter
  | none => checkMultiplicityIET t b none

/-- The two kinds of permutation `GeneralizedPermutation` can return: an
IET-kind permutation (each letter once per row) or a linear-involution-kind
permutation (each letter twice across the rows). -/
inductive GPerm : Type where
  | iet : Perm ℕ → Option (List ℕ) → GPerm
  | li : Perm ℕ → Option (List ℕ) → GPerm
deriving DecidableEq, Repr

/-- The `GeneralizedPermutation` constructor of the source file restricted to
its combinatorial core.  Flip letters are validated first (lines 500-503),
then every letter must occur exactly twice across the two rows (505-507); the
letters occurring once in each row are deleted (509-514) and the result
dispatches on the emptiness of the remaining rows (516-533): both empty gives
the IET constructor, exactly one empty is the "no admissible length" error,
otherwise a linear-involution permutation is built. -/
def GeneralizedPermutationChecked (t b : List ℕ) (flips : Option (List ℕ)) :
    Except PermError GPerm :=
  if (t ++ b).all (fun x => (t ++ b).count x == 2) then
    let s := strippedRows t b
    if s.1.isEmpty && s.2.isEmpty then
      (Permutation t b flips).map fun pf => .iet pf.1 pf.2
    else if s.1.isEmpty || s.2.isEmpty then .error .noAdmissibleLength
    else .ok (.li ⟨t, b⟩ flips)
  else .error .lettersTwice

/-- The `GeneralizedPermutation` constructor of the source file restricted to
its combinatorial core: flip validation (lines 500-503) followed by the letter
checks and dispatch of `GeneralizedPermutationChecked`. -/
def GeneralizedPermutation (t b : List ℕ) (flips : Option (List ℕ)) :
    Except PermError GPerm :=
  match flips with
  | some fl =>
    if fl.all (fun x => decide (x ∈ t ++ b)) then GeneralizedPermutationChecked t b flips
    else .error .invalidFlipLetter
  | none => GeneralizedPermutationChecked t b flips

/-- The validation errors of the `IntervalExchangeTransformation` constructor,
named after the spec's error kinds: `lengthMismatch` is "bad number of
lengths", `nonPositiveLength` is "lengths must be non-negative". -/
inductive IetError : Type where
  | lengthMismatch : IetError
  | nonPositiveLength : IetError
deriving DecidableEq, Repr

/-- The `IntervalExchangeTransformation` constructor of the source file
restricted to its validation core, for an already-built flip-free IET-kind
permutation and a list of lengths in the external ordered numeric type: the
length count must match the number of letters of the permutation (line 826)
and every length must be non-negative (line 840; the conversion check of
lines 834-837 concerns the external numeric collaborator and is out of
scope). -/
def IntervalExchangeTransformation {K : Type} [LinearOrderedField K]
    (p : Perm ℕ) (lengths : List K) : Except IetError (Perm ℕ × List K) :=
  if lengths.length ≠ p.top.length then .error .lengthMismatch
  else if lengths.any (fun x => decide (x < 0)) then .error .nonPositiveLength
  else .ok (p, lengths)

/-- Counterexample for C5: a length equal to zero is accepted by the
constructor (the source checks `x < 0`, message "lengths must be
non-negative"), so building an IET does not fail whenever a length is less
than or equal to zero. -/
theorem IntervalExchangeTransformation_accepts_zero_length :
    IntervalExchangeTransformation (⟨[0, 1], [1, 0]⟩ : Perm ℕ) ([0, 1] : List ℚ) =
      .ok (⟨[0, 1], [1, 0]⟩, [0, 1]) := by
  rw [IntervalExchangeTransformation]
  norm_num

/-- C5 (amended): building a numeric IET fails with `LengthMismatchError`
whenever the number of lengths differs from the number of letters of the
permutation, and, when the count matches, fails with `NonPositiveLength`
exactly when some supplied length is strictly negative (lengths equal to zero
are accepted). -/
theorem IntervalExchangeTransformation_error_characterization
    {K : Type} [LinearOrderedField K] (p : Perm ℕ) (ls : List K) :
    (ls.length ≠ p.top.length →
      IntervalExchangeTransformation p ls = .error .lengthMismatch) ∧
    (ls.length = p.top.length →
      (IntervalExchangeTransformation p ls = .error .nonPositiveLength ↔ ∃ x ∈ ls, x < 0)) := by
  constructor
  · intro h
    simp [IntervalExchangeTransformation, h]
  · intro h
    have hlen : ¬(ls.length ≠ p.top.length) := by simp [h]
    have hred : IntervalExchangeTransformation p ls =
        (if ls.any (fun x => decide (x < 0)) then .error .nonPositiveLength
         else .ok (p, ls)) := by
      rw [IntervalExchangeTransformation, if_neg hlen]
    rw [hred]
    by_cases hneg : ls.any (fun x => decide (x < 0))
    · rw [if_pos hneg]
      obtain ⟨x, hx, hx0⟩ := List.any_eq_true.mp hneg
      exact ⟨fun _ => ⟨x, hx, of_decide_eq_true hx0⟩, fun _ => rfl⟩
    · rw [if_neg hneg]
      constructor
      · intro habs
        exact Except.noConfusion habs
      · intro ⟨x, hx, hx0⟩
        exact absurd (List.any_eq_true.mpr ⟨x, hx, decide_eq_true hx0⟩) hneg

/-- Witness for C5: a strictly negative length is rejected with
`NonPositiveLength`, and a length vector of the wrong size is rejected with
`LengthMismatchError`. -/
theorem IntervalExchangeTransformation_error_characterization_witness :
    IntervalExchangeTransformation (⟨[0, 1], [1, 0]⟩ : Perm ℕ) ([1, -1] : List ℚ) =
      .error .nonPositiveLength ∧
    IntervalExchangeTransformation (⟨[0, 1], [1, 0]⟩ : Perm ℕ) ([1, 2, 3] : List ℚ) =
      .error .lengthMismatch :=
  ⟨(IntervalExchangeTransformation_error_characterization (⟨[0, 1], [1, 0]⟩ : Perm ℕ)
      ([1, -1] : List ℚ)).2 (by decide) |>.mpr ⟨-1, by decide, by norm_num⟩,
   (IntervalExchangeTransformation_error_characterization (⟨[0, 1], [1, 0]⟩ : Perm ℕ)
      ([1, 2, 3] : List ℚ)).1 (by decide)⟩

/-- C6: the IET permutation constructor, called on two label rows and no
flips, raises the letter-multiplicity error exactly when some letter of the
rows does not occur exactly once in the top row or not exactly once in the
bottom row. -/
theorem Permutation_letterMultiplicity_iff (t b : List ℕ) :
    Permutation t b none = .error .letterMultiplicity ↔
      ∃ x ∈ t ++ b, ¬(t.count x = 1 ∧ b.count x = 1) := by
  show checkMultiplicityIET t b none = .error .letterMultiplicity ↔ _
  by_cases h : (t ++ b).all (fun x => t.count x == 1 && b.count x == 1)
  · rw [List.all_eq_true] at h
    simp only [checkMultiplicityIET, if_pos (List.all_eq_true.mpr h)]
    constructor
    · intro habs
      exact absurd habs (by simp)
    · intro ⟨x, hx, hcount⟩
      obtain ⟨h1, h2⟩ := by simpa using h x hx
      exact absurd ⟨h1, h2⟩ hcount
  · simp only [checkMultiplicityIET, if_neg h]
    constructor
    · intro _
      rw [List.all_eq_true] at h
      push_neg at h
      obtain ⟨x, hx, hcount⟩ := h
      refine ⟨x, hx, fun hc => hcount ?_⟩
      simp [hc.1, hc.2]
    · intro _
      trivial

/-- C9: on a pair of rows in which each letter occurs exactly once in the top
row and exactly once in the bottom row, `GeneralizedPermutation` returns the
IET-kind permutation returned by `Permutation` on the same inputs, not a
linear-involution-kind object. -/
theorem GeneralizedPermutation_iet_agreement (t b : List ℕ)
    (h : ∀ x ∈ t ++ b, t.count x = 1 ∧ b.count x = 1) :
    GeneralizedPermutation t b none = .ok (.iet ⟨t, b⟩ none) ∧
    Permutation t b none = .ok (⟨t, b⟩, none) := by
  have hmult : (t ++ b).all (fun x => t.count x == 1 && b.count x == 1) = true := by
    rw [List.all_eq_true]
    intro x hx
    simp [(h x hx).1, (h x hx).2]
  have hPerm : Permutation t b none = .ok (⟨t, b⟩, none) := by
    show checkMultiplicityIET t b none = _
    rw [checkMultiplicityIET, if_pos hmult]
  refine ⟨?_, hPerm⟩
  show GeneralizedPermutationChecked t b none = _
  have htwice : (t ++ b).all (fun x => (t ++ b).count x == 2) = true := by
    rw [List.all_eq_true]
    intro x hx
    have := h x hx
    simp [List.count_append, this.1, this.2]
  have hstrip1 : (strippedRows t b).1 = [] := by
    simp only [strippedRows]
    rw [List.filter_eq_nil_iff]
    intro x hx
    simp [(h x (List.mem_append_left b hx)).1]
  have hstrip2 : (strippedRows t b).2 = [] := by
    simp only [strippedRows]
    rw [List.filter_eq_nil_iff]
    intro x hx
    simp [(h x (List.mem_append_right t hx)).1]
  rw [GeneralizedPermutationChecked, if_pos htwice]
  simp only [hstrip1, hstrip2, List.isEmpty_nil, Bool.and_self, if_pos, hPerm]
  rfl

/-- Witness for C9: the rows `a b / b a` build the same IET permutation
through both constructors. -/
theorem GeneralizedPermutation_iet_agreement_witness :
    GeneralizedPermutation [0, 1] [1, 0] none = .ok (.iet ⟨[0, 1], [1, 0]⟩ none) ∧
    Permutation [0, 1] [1, 0] none = .ok (⟨[0, 1], [1, 0]⟩, none) :=
  GeneralizedPermutation_iet_agreement [0, 1] [1, 0] (by decide)

/-- C10: `GeneralizedPermutation` fails with the "no admissible length" error
whenever each letter occurs exactly twice across the two rows combined but
deleting the letters that occur once in each row leaves exactly one of the two
rows empty. -/
theorem GeneralizedPermutation_no_admissible_length (t b : List ℕ)
    (h2 : ∀ x ∈ t ++ b, (t ++ b).count x = 2)
    (hs : ((strippedRows t b).1 = [] ∧ (strippedRows t b).2 ≠ []) ∨
          ((strippedRows t b).1 ≠ [] ∧ (strippedRows t b).2 = [])) :
    GeneralizedPermutation t b none = .error .noAdmissibleLength := by
  show GeneralizedPermutationChecked t b none = _
  have htwice : (t ++ b).all (fun x => (t ++ b).count x == 2) = true := by
    rw [List.all_eq_true]
    intro x hx
    simp [h2 x hx]
  rw [GeneralizedPermutationChecked, if_pos htwice]
  rcases hs with ⟨h1, hne⟩ | ⟨hne, h1⟩
  · rw [if_neg (by simp [h1, List.isEmpty_iff, hne]), if_pos (by simp [h1, List.isEmpty_iff])]
  · rw [if_neg (by simp [h1, List.isEmpty_iff, hne]), if_pos (by simp [h1, List.isEmpty_iff])]

/-- Witness for C10: the rows `a a b / b` (letters coded 0, 1) strip to
`a a` / `[]`, so the constructor fails with "no admissible length". -/
theorem GeneralizedPermutation_no_admissible_length_witness :
    GeneralizedPermutation [0, 0, 1] [1] none = .error .noAdmissibleLength :=
  GeneralizedPermutation_no_admissible_length [0, 0, 1] [1] (by decide) (by decide)

/-! ## The numeric IET runtime: composition, inversion, identity test (C4) -/

/-- Modelled from the spec: a concrete numeric interval exchange
transformation, a permutation together with a map from labels to lengths in
the external ordered numeric type. -/
structure Iet (A K : Type) where
  perm : Perm A
  lengths : A → K

variable {K : Type} [LinearOrderedField K]

/-- The prefix of a row strictly before the first occurrence of a letter. -/
def beforeIn : List A → A → List A
  | [], _ => []
  | y :: ys, x => if y = x then [] else y :: beforeIn ys x

/-- The left endpoint of the interval of a letter in the partition determined
by a row and a length map (sum of the lengths of the letters before it). -/
def intervalStart (len : A → K) (row : List A) (x : A) : K :=
  ((beforeIn row x).map len).sum

/-- Modelled from the spec: the length of the overlap between the image
interval of letter `x` under the first-applied map `T` and the domain
interval of letter `y` of the second-applied map `S`. -/
def overlapLen (T S : Iet A K) (x y : A) : K :=
  min (intervalStart T.lengths T.perm.bottom x + T.lengths x)
      (intervalStart S.lengths S.perm.top y + S.lengths y) -
    max (intervalStart T.lengths T.perm.bottom x) (intervalStart S.lengths S.perm.top y)

/-- Modelled from the spec: functional composition `S ∘ T` of two numeric
IETs.  The composite's letters are the pairs `(x, y)` whose image/domain
intervals overlap; the top row lists them by domain position (for each letter
of `T`'s top row, the overlapping `S`-letters in domain order), the bottom row
by image position (for each letter of `S`'s bottom row, the overlapping
`T`-letters in image order), and each pair's length is the overlap length.
This reproduces the row pairs of the source's doctests (`T*T` and
`S*T = (aa bb / aa bb)`). -/
def compose (S T : Iet A K) : Iet (A × A) K :=
  ⟨⟨T.perm.top.flatMap fun x =>
      (S.perm.top.filter fun y => decide (0 < overlapLen T S x y)).map fun y => (x, y),
    S.perm.bottom.flatMap fun y =>
      (T.perm.bottom.filter fun x => decide (0 < overlapLen T S x y)).map fun x => (x, y)⟩,
   fun xy => overlapLen T S xy.1 xy.2⟩

/-- Modelled from the spec: the inverse of a numeric IET swaps the roles of
the two rows and preserves the lengths. -/
def inverse (T : Iet A K) : Iet A K :=
  ⟨⟨T.perm.bottom, T.perm.top⟩, T.lengths⟩

/-- Modelled from the spec: the identity test of a numeric IET: the derived
permutation is literally the identity row pair. -/
def is_identity {B : Type} (T : Iet B K) : Prop :=
  T.perm.top = T.perm.bottom

lemma beforeIn_mem {R : List A} {x z : A} (hz : z ∈ beforeIn R x) : z ∈ R := by
  induction R with
  | nil => cases hz
  | cons a R ih =>
    rw [beforeIn] at hz
    by_cases hax : a = x
    · rw [if_pos hax] at hz; cases hz
    · rw [if_neg hax] at hz
      rcases List.mem_cons.mp hz with h | h
      · exact h ▸ List.mem_cons_self a R
      · exact List.mem_cons_of_mem a (ih h)

lemma map_sum_nonneg (len : A → K) (l : List A) (h : ∀ a ∈ l, 0 ≤ len a) :
    0 ≤ (l.map len).sum := by
  induction l with
  | nil => simp
  | cons a l ih =>
    rw [List.map_cons, List.sum_cons]
    have := h a (List.mem_cons_self a l)
    have := ih fun b hb => h b (List.mem_cons_of_mem a hb)
    linarith

lemma intervalStart_head (len : A → K) (a : A) (R : List A) :
    intervalStart len (a :: R) a = 0 := by
  simp [intervalStart, beforeIn]

lemma intervalStart_cons_ne (len : A → K) {a z : A} (R : List A) (h : a ≠ z) :
    intervalStart len (a :: R) z = len a + intervalStart len R z := by
  simp [intervalStart, beforeIn, if_neg h]

lemma interval_disjoint (len : A → K) (R : List A) (hnd : R.Nodup)
    (hpos : ∀ a ∈ R, 0 < len a) {x y : A} (hx : x ∈ R) (hy : y ∈ R) (hxy : x ≠ y) :
    intervalStart len R x + len x ≤ intervalStart len R y ∨
    intervalStart len R y + len y ≤ intervalStart len R x := by
  induction R with
  | nil => cases hx
  | cons a R ih =>
    rw [List.nodup_cons] at hnd
    have hposR : ∀ b ∈ R, 0 < len b := fun b hb => hpos b (List.mem_cons_of_mem a hb)
    have hstart_nonneg : ∀ z : A, (0 : K) ≤ intervalStart len R z := fun z =>
      map_sum_nonneg len _ fun b hb => le_of_lt (hposR b (beforeIn_mem hb))
    by_cases hax : x = a
    · left
      have hya : a ≠ y := fun h => hxy (hax.trans h)
      rw [hax, intervalStart_head, intervalStart_cons_ne len R hya]
      have h0 := hstart_nonneg y
      linarith
    · by_cases hay : y = a
      · right
        have hxa : a ≠ x := fun h => hax h.symm
        rw [hay, intervalStart_head, intervalStart_cons_ne len R hxa]
        have h0 := hstart_nonneg x
        linarith
      · have hxR : x ∈ R := (List.mem_cons.mp hx).resolve_left hax
        have hyR : y ∈ R := (List.mem_cons.mp hy).resolve_left hay
        rw [intervalStart_cons_ne len R (fun h => hax h.symm),
          intervalStart_cons_ne len R (fun h => hay h.symm)]
        rcases ih hnd.2 hposR hxR hyR with h | h
        · left; linarith
        · right; linarith

lemma overlap_pos_iff (len : A → K) (R : List A) (hnd : R.Nodup)
    (hpos : ∀ a ∈ R, 0 < len a) {x y : A} (hx : x ∈ R) (hy : y ∈ R) :
    (0 < min (intervalStart len R x + len x) (intervalStart len R y + len y) -
      max (intervalStart len R x) (intervalStart len R y)) ↔ x = y := by
  constructor
  · intro h
    by_contra hxy
    rcases interval_disjoint len R hnd hpos hx hy hxy with hle | hle
    · have h1 : min (intervalStart len R x + len x) (intervalStart len R y + len y) ≤
          intervalStart len R x + len x := min_le_left _ _
      have h2 : intervalStart len R y ≤
          max (intervalStart len R x) (intervalStart len R y) := le_max_right _ _
      linarith
    · have h1 : min (intervalStart len R x + len x) (intervalStart len R y + len y) ≤
          intervalStart len R y + len y := min_le_right _ _
      have h2 : intervalStart len R x ≤
          max (intervalStart len R x) (intervalStart len R y) := le_max_left _ _
      linarith
  · intro h
    subst h
    rw [min_self, max_self]
    have := hpos x hx
    linarith

lemma filter_eq_singleton (R : List A) (p : A → Bool) (x : A) (hnd : R.Nodup) (hx : x ∈ R)
    (hp : ∀ y ∈ R, p y = true ↔ y = x) : R.filter p = [x] := by
  induction R with
  | nil => cases hx
  | cons a R ih =>
    rw [List.nodup_cons] at hnd
    by_cases hax : a = x
    · subst hax
      rw [List.filter_cons_of_pos ((hp a (List.mem_cons_self a R)).mpr rfl)]
      have h0 : R.filter p = [] := by
        rw [List.filter_eq_nil_iff]
        intro y hy hpy
        exact hnd.1 (((hp y (List.mem_cons_of_mem a hy)).mp hpy) ▸ hy)
      rw [h0]
    · have hxR : x ∈ R := by
        rcases List.mem_cons.mp hx with h | h
        · exact absurd h.symm hax
        · exact h
      rw [List.filter_cons_of_neg
        (fun h => hax ((hp a (List.mem_cons_self a R)).mp h))]
      exact ih hnd.2 hxR fun y hy => hp y (List.mem_cons_of_mem a hy)

lemma flatMap_eq_map_of_mem {B : Type} (R : List A) (f : A → List B) (g : A → B)
    (h : ∀ x ∈ R, f x = [g x]) : R.flatMap f = R.map g := by
  induction R with
  | nil => rfl
  | cons a R ih =>
    rw [List.flatMap_cons, List.map_cons, h a (List.mem_cons_self a R),
      ih fun x hx => h x (List.mem_cons_of_mem a hx)]
    rfl

/-- C4: for every valid numeric IET `T` (rows are permutations of each other
with no repetition, lengths positive), `compose(inverse(T), T)` and
`compose(T, inverse(T))` both satisfy the identity test `is_identity`. -/
theorem compose_inverse_is_identity (T : Iet A K)
    (hnd : T.perm.top.Nodup) (hperm : T.perm.bottom.Perm T.perm.top)
    (hpos : ∀ a ∈ T.perm.top, 0 < T.lengths a) :
    is_identity (compose (inverse T) T) ∧ is_identity (compose T (inverse T)) := by
  have hndb : T.perm.bottom.Nodup := hperm.nodup_iff.mpr hnd
  have hposb : ∀ a ∈ T.perm.bottom, 0 < T.lengths a := fun a ha =>
    hpos a (hperm.mem_iff.mp ha)
  have hmembt : ∀ a, a ∈ T.perm.bottom ↔ a ∈ T.perm.top := fun a => hperm.mem_iff
  constructor
  · -- compose (inverse T) T : both partitions live on the row T.perm.bottom
    have hov : ∀ x ∈ T.perm.bottom, ∀ y ∈ T.perm.bottom,
        (0 < overlapLen T (inverse T) x y ↔ x = y) := fun x hx y hy =>
      overlap_pos_iff T.lengths T.perm.bottom hndb hposb hx hy
    show T.perm.top.flatMap _ = (inverse T).perm.bottom.flatMap _
    have htop : T.perm.top.flatMap
        (fun x => ((inverse T).perm.top.filter
          (fun y => decide (0 < overlapLen T (inverse T) x y))).map fun y => (x, y)) =
        T.perm.top.map fun x => (x, x) := by
      refine flatMap_eq_map_of_mem _ _ _ fun x hx => ?_
      have hxb : x ∈ T.perm.bottom := (hmembt x).mpr hx
      show (T.perm.bottom.filter
        (fun y => decide (0 < overlapLen T (inverse T) x y))).map (fun y => (x, y)) = [(x, x)]
      rw [filter_eq_singleton T.perm.bottom _ x hndb hxb fun y hy => by
        simp only [decide_eq_true_eq]
        exact (hov x hxb y hy).trans eq_comm]
      rfl
    have hbot : (inverse T).perm.bottom.flatMap
        (fun y => (T.perm.bottom.filter
          (fun x => decide (0 < overlapLen T (inverse T) x y))).map fun x => (x, y)) =
        T.perm.top.map fun y => (y, y) := by
      refine flatMap_eq_map_of_mem _ _ _ fun y hy => ?_
      have hyb : y ∈ T.perm.bottom := (hmembt y).mpr hy
      rw [filter_eq_singleton T.perm.bottom _ y hndb hyb fun x hx => by
        simp only [decide_eq_true_eq]
        exact hov x hx y hyb]
      rfl
    exact htop.trans hbot.symm
  · -- compose T (inverse T) : both partitions live on the row T.perm.top
    have hov : ∀ x ∈ T.perm.top, ∀ y ∈ T.perm.top,
        (0 < overlapLen (inverse T) T x y ↔ x = y) := fun x hx y hy =>
      overlap_pos_iff T.lengths T.perm.top hnd hpos hx hy
    show (inverse T).perm.top.flatMap _ = T.perm.bottom.flatMap _
    have htop : (inverse T).perm.top.flatMap
        (fun x => (T.perm.top.filter
          (fun y => decide (0 < overlapLen (inverse T) T x y))).map fun y => (x, y)) =
        T.perm.bottom.map fun x => (x, x) := by
      refine flatMap_eq_map_of_mem _ _ _ fun x hx => ?_
      have hxt : x ∈ T.perm.top := (hmembt x).mp hx
      rw [filter_eq_singleton T.perm.top _ x hnd hxt fun y hy => by
        simp only [decide_eq_true_eq]
        exact (hov x hxt y hy).trans eq_comm]
      rfl
    have hbot : T.perm.bottom.flatMap
        (fun y => ((inverse T).perm.bottom.filter
          (fun x => decide (0 < overlapLen (inverse T) T x y))).map fun x => (x, y)) =
        T.perm.bottom.map fun y => (y, y) := by
      refine flatMap_eq_map_of_mem _ _ _ fun y hy => ?_
      have hyt : y ∈ T.perm.top := (hmembt y).mp hy
      show (T.perm.top.filter
        (fun x => decide (0 < overlapLen (inverse T) T x y))).map (fun x => (x, y)) = [(y, y)]
      rw [filter_eq_singleton T.perm.top _ y hnd hyt fun x hx => by
        simp only [decide_eq_true_eq]
        exact hov x hx y hyt]
      rfl
    exact htop.trans hbot.symm

/-- Witness for C4: the concrete IET on rows `a b / b a` with lengths 1 and 2
composes with its inverse, in both orders, to an identity map. -/
theorem compose_inverse_is_identity_witness :
    is_identity (compose (inverse ⟨⟨[0, 1], [1, 0]⟩, fun a => if a = 0 then (1 : ℚ) else 2⟩)
        ⟨⟨[0, 1], [1, 0]⟩, fun a => if a = 0 then (1 : ℚ) else 2⟩) ∧
    is_identity (compose (⟨⟨[0, 1], [1, 0]⟩, fun a => if a = 0 then (1 : ℚ) else 2⟩ : Iet ℕ ℚ)
        (inverse ⟨⟨[0, 1], [1, 0]⟩, fun a => if a = 0 then (1 : ℚ) else 2⟩)) :=
  compose_inverse_is_identity ⟨⟨[0, 1], [1, 0]⟩, fun a => if a = 0 then (1 : ℚ) else 2⟩
    (by decide) (by decide)
    (by intro a ha; fin_cases ha <;> norm_num)

/-! ## Labelled and reduced permutation semantics: round trips and
relabeling-invariant equality (C7, C8) -/

/-- Validity of an IET-kind permutation: every letter occurs exactly once in
each row (the invariant established by the `Permutation` constructor). -/
def validIET (p : Perm ℕ) : Prop :=
  ∀ x ∈ p.top ++ p.bottom, p.top.count x = 1 ∧ p.bottom.count x = 1

instance (p : Perm ℕ) : Decidable (validIET p) := by
  unfold validIET
  infer_instance

lemma validIET_top_nodup {p : Perm ℕ} (h : validIET p) : p.top.Nodup :=
  List.nodup_iff_count_eq_one.mpr fun x hx => (h x (List.mem_append_left _ hx)).1

lemma validIET_bottom_nodup {p : Perm ℕ} (h : validIET p) : p.bottom.Nodup :=
  List.nodup_iff_count_eq_one.mpr fun x hx => (h x (List.mem_append_right _ hx)).2

lemma validIET_mem_iff {p : Perm ℕ} (h : validIET p) {x : ℕ} :
    x ∈ p.bottom ↔ x ∈ p.top := by
  constructor
  · intro hx
    exact List.count_pos_iff.mp (by
      rw [(h x (List.mem_append_right _ hx)).1]; norm_num)
  · intro hx
    exact List.count_pos_iff.mp (by
      rw [(h x (List.mem_append_left _ hx)).2]; norm_num)

lemma foldl_firstOccs_all_mem (l : List ℕ) (acc : List ℕ) (h : ∀ x ∈ l, x ∈ acc) :
    l.foldl (fun acc x => if x ∈ acc then acc else acc ++ [x]) acc = acc := by
  induction l with
  | nil => rfl
  | cons a l ih =>
    rw [List.foldl_cons, if_pos (h a (List.mem_cons_self a l))]
    exact ih fun x hx => h x (List.mem_cons_of_mem a hx)

lemma foldl_firstOccs_disjoint (l : List ℕ) (hnd : l.Nodup) :
    ∀ acc : List ℕ, (∀ x ∈ l, x ∉ acc) →
      l.foldl (fun acc x => if x ∈ acc then acc else acc ++ [x]) acc = acc ++ l := by
  induction l with
  | nil => intro acc _; simp
  | cons a l ih =>
    intro acc hdisj
    rw [List.nodup_cons] at hnd
    rw [List.foldl_cons, if_neg (hdisj a (List.mem_cons_self a l))]
    rw [ih hnd.2 (acc ++ [a]) fun x hx hmem => by
      rcases List.mem_append.mp hmem with h1 | h1
      · exact hdisj x (List.mem_cons_of_mem a hx) h1
      · exact hnd.1 (List.mem_singleton.mp h1 ▸ hx)]
    simp

lemma firstOccs_eq_top {p : Perm ℕ} (h : validIET p) :
    firstOccs (p.top ++ p.bottom) = p.top := by
  rw [firstOccs, List.foldl_append]
  rw [foldl_firstOccs_disjoint p.top (validIET_top_nodup h) [] (by simp), List.nil_append]
  exact foldl_firstOccs_all_mem p.bottom p.top fun x hx => (validIET_mem_iff h).mp hx

lemma canonical_eq_of_valid {p : Perm ℕ} (h : validIET p) :
    canonical p = ⟨p.top.map (fun x => p.top.indexOf x),
                   p.bottom.map (fun x => p.top.indexOf x)⟩ := by
  unfold canonical
  rw [firstOccs_eq_top h]

lemma canonical_top_range {p : Perm ℕ} (h : validIET p) :
    (canonical p).top = List.range p.top.length := by
  rw [canonical_eq_of_valid h]
  apply List.ext_getElem (by simp)
  intro i h1 h2
  simp only [List.getElem_map, List.getElem_range]
  exact List.indexOf_getElem (validIET_top_nodup h) i (by simpa using h1)

lemma indexOf_range {n i : ℕ} (h : i < n) : (List.range n).indexOf i = i := by
  have := List.indexOf_getElem (List.nodup_range n) i (by simpa using h)
  simpa using this

lemma count_map_injOn (f : ℕ → ℕ) (S : List ℕ)
    (hinj : ∀ u ∈ S, ∀ v ∈ S, f u = f v → u = v)
    (l : List ℕ) (hl : ∀ y ∈ l, y ∈ S) (x : ℕ) (hx : x ∈ S) :
    (l.map f).count (f x) = l.count x := by
  induction l with
  | nil => rfl
  | cons a l ih =>
    rw [List.map_cons, List.count_cons, List.count_cons,
      ih fun y hy => hl y (List.mem_cons_of_mem a hy)]
    have ha : a ∈ S := hl a (List.mem_cons_self a l)
    congr 1
    by_cases hax : a = x
    · simp [hax]
    · have hfa : f a ≠ f x := fun hfe => hax (hinj a ha x hx hfe)
      simp [hax, hfa]

lemma validIET_relabel_inj {p : Perm ℕ} (h : validIET p) :
    ∀ u ∈ p.top, ∀ v ∈ p.top, p.top.indexOf u = p.top.indexOf v → u = v :=
  fun u hu v hv he => (List.indexOf_inj hu hv).mp he

lemma validIET_canonical {p : Perm ℕ} (h : validIET p) : validIET (canonical p) := by
  rw [canonical_eq_of_valid h]
  intro i hi
  rw [← List.map_append] at hi
  obtain ⟨x, hx, rfl⟩ := List.mem_map.mp hi
  have hxt : x ∈ p.top := by
    rcases List.mem_append.mp hx with h1 | h1
    · exact h1
    · exact (validIET_mem_iff h).mp h1
  constructor
  · rw [count_map_injOn _ p.top (validIET_relabel_inj h) p.top (fun y hy => hy) x hxt]
    exact (h x (List.mem_append_left _ hxt)).1
  · rw [count_map_injOn _ p.top (validIET_relabel_inj h) p.bottom
      (fun y hy => (validIET_mem_iff h).mp hy) x hxt]
    exact (h x (List.mem_append_left _ hxt)).2

lemma canonical_mem_lt {p : Perm ℕ} (h : validIET p) {i : ℕ}
    (hi : i ∈ (canonical p).top ++ (canonical p).bottom) : i < p.top.length := by
  rw [canonical_eq_of_valid h, ← List.map_append] at hi
  obtain ⟨x, hx, rfl⟩ := List.mem_map.mp hi
  have hxt : x ∈ p.top := by
    rcases List.mem_append.mp hx with h1 | h1
    · exact h1
    · exact (validIET_mem_iff h).mp h1
  exact List.indexOf_lt_length.mpr hxt

lemma canonical_idem {p : Perm ℕ} (h : validIET p) :
    canonical (canonical p) = canonical p := by
  have hv' := validIET_canonical h
  rw [canonical_eq_of_valid hv']
  have htop := canonical_top_range h
  have hfix : ∀ i, i < p.top.length → (canonical p).top.indexOf i = i := by
    intro i hi
    rw [htop]
    exact indexOf_range hi
  have h1 : (canonical p).top.map (fun x => (canonical p).top.indexOf x) =
      (canonical p).top := by
    rw [List.map_congr_left fun i hi =>
      hfix i (canonical_mem_lt h (List.mem_append_left _ hi))]
    exact List.map_id' _
  have h2 : (canonical p).bottom.map (fun x => (canonical p).top.indexOf x) =
      (canonical p).bottom := by
    rw [List.map_congr_left fun i hi =>
      hfix i (canonical_mem_lt h (List.mem_append_right _ hi))]
    exact List.map_id' _
  rw [h1, h2]

/-- Modelled from the spec: the canonical form of a flip set under the
relabeling that canonicalizes a permutation: the set of relabelled flip
letters, represented canonically as the ordered sublist of the possible
letters. -/
def canonicalFlips (p : Perm ℕ) (fl : Option (List ℕ)) : Option (List ℕ) :=
  fl.map fun l =>
    (List.range (firstOccs (p.top ++ p.bottom)).length).filter fun i =>
      decide (i ∈ l.map fun x => (firstOccs (p.top ++ p.bottom)).indexOf x)

/-- Modelled from the spec: the reduced-mode permutation constructor: validate
as in labelled mode, then pass to the canonical representative of the
relabeling class (a reduced permutation is the canonical representative, and
reduced equality is equality of canonical forms). -/
def PermutationReduced (t b : List ℕ) (flips : Option (List ℕ)) :
    Except PermError (Perm ℕ × Option (List ℕ)) :=
  (Permutation t b flips).map fun pf => (canonical pf.1, canonicalFlips pf.1 pf.2)

lemma checkMultiplicityIET_ok_inv {t b : List ℕ} {fl : Option (List ℕ)}
    {q : Perm ℕ} {fl₂ : Option (List ℕ)}
    (h : checkMultiplicityIET t b fl = .ok (q, fl₂)) :
    q = ⟨t, b⟩ ∧ fl₂ = fl ∧ validIET ⟨t, b⟩ := by
  rw [checkMultiplicityIET] at h
  by_cases hc : (t ++ b).all (fun x => t.count x == 1 && b.count x == 1)
  · rw [if_pos hc] at h
    obtain ⟨h1, h2⟩ := Prod.mk.injEq .. ▸ Except.ok.inj h
    refine ⟨h1.symm, h2.symm, ?_⟩
    intro x hx
    have := List.all_eq_true.mp hc x hx
    constructor
    · exact beq_iff_eq.mp (Bool.and_elim_left this)
    · exact beq_iff_eq.mp (Bool.and_elim_right this)
  · rw [if_neg hc] at h
    exact absurd h (by simp)

lemma validIET_checkMultiplicity {t b : List ℕ} (h : validIET ⟨t, b⟩)
    (fl : Option (List ℕ)) : checkMultiplicityIET t b fl = .ok (⟨t, b⟩, fl) := by
  rw [checkMultiplicityIET, if_pos]
  rw [List.all_eq_true]
  intro x hx
  have := h x hx
  simp [this.1, this.2]

lemma Permutation_none (t b : List ℕ) :
    Permutation t b none = checkMultiplicityIET t b none := rfl

lemma Permutation_some_nil (t b : List ℕ) :
    Permutation t b (some []) = checkMultiplicityIET t b none := rfl

lemma Permutation_some_cons (t b : List ℕ) (a : ℕ) (l' : List ℕ) :
    Permutation t b (some (a :: l')) =
      if (a :: l').all (fun x => decide (x ∈ t ++ b)) then
        checkMultiplicityIET t b (some (a :: l'))
      else .error .invalidFlipLetter := rfl

/-- The facts the `Permutation` constructor establishes about its output. -/
lemma Permutation_ok_inv {t b : List ℕ} {fl : Option (List ℕ)}
    {q : Perm ℕ} {fl₂ : Option (List ℕ)}
    (h : Permutation t b fl = .ok (q, fl₂)) :
    q = ⟨t, b⟩ ∧ validIET ⟨t, b⟩ ∧
      (fl₂ = none ∨ ∃ l, fl₂ = some l ∧ l ≠ [] ∧ ∀ x ∈ l, x ∈ t ++ b) := by
  rcases fl with _ | l
  · rw [Permutation_none] at h
    obtain ⟨h1, h2, h3⟩ := checkMultiplicityIET_ok_inv h
    exact ⟨h1, h3, Or.inl h2⟩
  · rcases l with _ | ⟨a, l'⟩
    · rw [Permutation_some_nil] at h
      obtain ⟨h1, h2, h3⟩ := checkMultiplicityIET_ok_inv h
      exact ⟨h1, h3, Or.inl h2⟩
    · rw [Permutation_some_cons] at h
      by_cases hmem : (a :: l').all fun x => decide (x ∈ t ++ b)
      · rw [if_pos hmem] at h
        obtain ⟨h1, h2, h3⟩ := checkMultiplicityIET_ok_inv h
        refine ⟨h1, h3, Or.inr ⟨a :: l', h2, by simp, ?_⟩⟩
        intro x hx
        exact of_decide_eq_true (List.all_eq_true.mp hmem x hx)
      · rw [if_neg hmem] at h
        exact absurd h (by simp)

/-- Rebuilding a labelled permutation from its own rows and flips returns it
unchanged. -/
lemma Permutation_rebuild {p : Perm ℕ} (hv : validIET p)
    {fl₂ : Option (List ℕ)}
    (hfl : fl₂ = none ∨ ∃ l, fl₂ = some l ∧ l ≠ [] ∧ ∀ x ∈ l, x ∈ p.top ++ p.bottom) :
    Permutation p.top p.bottom fl₂ = .ok (p, fl₂) := by
  rcases hfl with rfl | ⟨l, rfl, hne, hmem⟩
  · rw [Permutation_none]
    exact validIET_checkMultiplicity hv none
  · obtain ⟨a, l', rfl⟩ := List.exists_cons_of_ne_nil hne
    rw [Permutation_some_cons,
      if_pos (List.all_eq_true.mpr fun x hx => decide_eq_true (hmem x hx))]
    exact validIET_checkMultiplicity hv (some (a :: l'))

lemma canonicalFlips_eq_of_valid {p : Perm ℕ} (h : validIET p) (fl : Option (List ℕ)) :
    canonicalFlips p fl = fl.map fun l =>
      (List.range p.top.length).filter fun i =>
        decide (i ∈ l.map fun x => p.top.indexOf x) := by
  unfold canonicalFlips
  rw [firstOccs_eq_top h]

lemma filter_decide_mem_filter (l : List ℕ) (p : ℕ → Bool) :
    l.filter (fun i => decide (i ∈ l.filter p)) = l.filter p := by
  apply List.filter_congr
  intro i hi
  by_cases hp : p i <;> simp [List.mem_filter, hi, hp]

lemma canonicalFlips_some {p : Perm ℕ} (h : validIET p) (l : List ℕ) :
    canonicalFlips p (some l) =
      some ((List.range p.top.length).filter fun i =>
        decide (i ∈ l.map fun x => p.top.indexOf x)) := by
  rw [canonicalFlips_eq_of_valid h]
  rfl

lemma canonicalFlips_facts {p : Perm ℕ} (h : validIET p) {fl : Option (List ℕ)}
    (hfl : fl = none ∨ ∃ l, fl = some l ∧ l ≠ [] ∧ ∀ x ∈ l, x ∈ p.top ++ p.bottom) :
    canonicalFlips p fl = none ∨
      ∃ l₂, canonicalFlips p fl = some l₂ ∧ l₂ ≠ [] ∧
        ∀ i ∈ l₂, i ∈ (canonical p).top ++ (canonical p).bottom := by
  rcases hfl with rfl | ⟨l, rfl, hne, hmem⟩
  · left
    rfl
  · right
    rw [canonicalFlips_some h]
    refine ⟨_, rfl, ?_, ?_⟩
    · obtain ⟨a, l', rfl⟩ := List.exists_cons_of_ne_nil hne
      have hat : a ∈ p.top := by
        rcases List.mem_append.mp (hmem a (List.mem_cons_self a l')) with h1 | h1
        · exact h1
        · exact (validIET_mem_iff h).mp h1
      apply List.ne_nil_of_mem (a := p.top.indexOf a)
      rw [List.mem_filter]
      constructor
      · rw [List.mem_range]
        exact List.indexOf_lt_length.mpr hat
      · exact decide_eq_true (List.mem_map.mpr ⟨a, List.mem_cons_self a l', rfl⟩)
    · intro i hi
      apply List.mem_append_left
      rw [canonical_top_range h, List.mem_range]
      exact List.mem_range.mp (List.mem_filter.mp hi).1

lemma canonicalFlips_idem {p : Perm ℕ} (h : validIET p) {fl : Option (List ℕ)}
    (hfl : fl = none ∨ ∃ l, fl = some l ∧ l ≠ [] ∧ ∀ x ∈ l, x ∈ p.top ++ p.bottom) :
    canonicalFlips (canonical p) (canonicalFlips p fl) = canonicalFlips p fl := by
  rcases fl with _ | l
  · rfl
  · have hv' := validIET_canonical h
    rw [canonicalFlips_some h, canonicalFlips_some hv']
    have hlen : (canonical p).top.length = p.top.length := by
      rw [canonical_top_range h, List.length_range]
    rw [hlen]
    have hfix : ∀ i ∈ (List.range p.top.length).filter fun i =>
        decide (i ∈ l.map fun x => p.top.indexOf x),
        (canonical p).top.indexOf i = i := by
      intro i hi
      rw [canonical_top_range h]
      exact indexOf_range (List.mem_range.mp (List.mem_filter.mp hi).1)
    have hmapid : ((List.range p.top.length).filter fun i =>
        decide (i ∈ l.map fun x => p.top.indexOf x)).map
          (fun x => (canonical p).top.indexOf x) =
        (List.range p.top.length).filter fun i =>
          decide (i ∈ l.map fun x => p.top.indexOf x) := by
      rw [List.map_congr_left hfix]
      exact List.map_id' _
    rw [hmapid, filter_decide_mem_filter]

/-- C7: for every valid permutation, reconstructing a permutation from its own
row representation with the same mode and flips yields an equal object: in
labelled mode the reconstruction is literally equal, and in reduced mode the
reconstruction from the canonical representative's rows is equal as a
canonical class (the canonical form is reproduced exactly). -/
theorem Permutation_roundtrip (t b : List ℕ) (fl : Option (List ℕ)) (q : Perm ℕ)
    (fl₂ : Option (List ℕ)) (h : Permutation t b fl = .ok (q, fl₂)) :
    Permutation q.top q.bottom fl₂ = .ok (q, fl₂) ∧
    PermutationReduced t b fl = .ok (canonical q, canonicalFlips q fl₂) ∧
    PermutationReduced (canonical q).top (canonical q).bottom (canonicalFlips q fl₂) =
      .ok (canonical q, canonicalFlips q fl₂) := by
  obtain ⟨h1, hv, hfl⟩ := Permutation_ok_inv h
  subst h1
  refine ⟨Permutation_rebuild hv hfl, ?_, ?_⟩
  · rw [PermutationReduced, h]
    rfl
  · rw [PermutationReduced,
      Permutation_rebuild (validIET_canonical hv) (canonicalFlips_facts hv hfl)]
    show Except.ok (canonical (canonical ⟨t, b⟩), _) = _
    rw [canonical_idem hv, canonicalFlips_idem hv hfl]

/-- Witness for C7: the permutation `a b / b a` (letters coded 0, 1) with no
flips round-trips in labelled mode, and its reduced form round-trips as a
canonical class. -/
theorem Permutation_roundtrip_witness :
    Permutation (Perm.top ⟨[0, 1], [1, 0]⟩) (Perm.bottom ⟨[0, 1], [1, 0]⟩) none =
      .ok (⟨[0, 1], [1, 0]⟩, none) ∧
    PermutationReduced [0, 1] [1, 0] none =
      .ok (canonical ⟨[0, 1], [1, 0]⟩, canonicalFlips ⟨[0, 1], [1, 0]⟩ none) ∧
    PermutationReduced (canonical (⟨[0, 1], [1, 0]⟩ : Perm ℕ)).top
        (canonical (⟨[0, 1], [1, 0]⟩ : Perm ℕ)).bottom
        (canonicalFlips ⟨[0, 1], [1, 0]⟩ none) =
      .ok (canonical ⟨[0, 1], [1, 0]⟩, canonicalFlips ⟨[0, 1], [1, 0]⟩ none) :=
  Permutation_roundtrip [0, 1] [1, 0] none ⟨[0, 1], [1, 0]⟩ none rfl

/-- Modelled from the spec: a labelled permutation with an explicit ordered
alphabet: the rows are stored as positions in the alphabet (the source's
doctests show that two labelled permutations with the same printed rows but
differently ordered alphabets are different and have different matrices). -/
structure LabelledPermA : Type where
  alphabet : List ℕ
  top : List ℕ
  bottom : List ℕ
deriving DecidableEq, Repr

/-- Building a labelled permutation over an explicit ordered alphabet. -/
def labelledWithAlphabet (t b alph : List ℕ) : LabelledPermA :=
  ⟨alph, t.map fun x => alph.indexOf x, b.map fun x => alph.indexOf x⟩

/-- Building a reduced permutation over an explicit ordered alphabet: the
canonical form of the position rows (the alphabet identity is forgotten up to
label-consistent renaming). -/
def reducedFromRows (t b alph : List ℕ) : Perm ℕ :=
  canonical ⟨t.map (fun x => alph.indexOf x), b.map fun x => alph.indexOf x⟩

lemma validIET_bottom_perm {p : Perm ℕ} (h : validIET p) : p.bottom.Perm p.top :=
  (List.perm_ext_iff_of_nodup (validIET_bottom_nodup h) (validIET_top_nodup h)).mpr
    fun _ => validIET_mem_iff h

lemma canonical_eq_iff_relabeling (p q : Perm ℕ) (hp : validIET p) (hq : validIET q) :
    canonical p = canonical q ↔
      ∃ f : ℕ → ℕ, p.top.map f = q.top ∧ p.bottom.map f = q.bottom := by
  constructor
  · intro hc
    have hlen : p.top.length = q.top.length := by
      have h1 := congrArg Perm.top hc
      rw [canonical_top_range hp, canonical_top_range hq] at h1
      simpa using congrArg List.length h1
    have hblen : p.bottom.length = q.bottom.length := by
      rw [(validIET_bottom_perm hp).length_eq, (validIET_bottom_perm hq).length_eq, hlen]
    have hbotc := congrArg Perm.bottom hc
    rw [canonical_eq_of_valid hp, canonical_eq_of_valid hq] at hbotc
    refine ⟨fun x => q.top.getD (p.top.indexOf x) 0, ?_, ?_⟩
    · apply List.ext_getElem (by simpa using hlen)
      intro i h1 h2
      rw [List.getElem_map]
      have hidx : p.top.indexOf p.top[i] = i :=
        List.indexOf_getElem (validIET_top_nodup hp) i (by simpa using h1)
      simp only [hidx]
      exact List.getD_eq_getElem q.top 0 (by simpa using h2)
    · apply List.ext_getElem (by simpa using hblen)
      intro j h1 h2
      rw [List.getElem_map]
      have h1' : j < p.bottom.length := by simpa using h1
      have h2' : j < q.bottom.length := by simpa using h2
      have hj := List.getElem_of_eq hbotc (by simpa using h1')
      rw [List.getElem_map, List.getElem_map] at hj
      have hmem : q.bottom[j] ∈ q.top := (validIET_mem_iff hq).mp (List.getElem_mem h2')
      have hlt : q.top.indexOf q.bottom[j] < q.top.length := List.indexOf_lt_length.mpr hmem
      simp only [hj]
      rw [List.getD_eq_getElem q.top 0 hlt]
      exact List.getElem_indexOf hlt
  · intro ⟨f, hf1, hf2⟩
    have hqlen : q.top.length = p.top.length := by
      rw [← hf1, List.length_map]
    have key : ∀ x ∈ p.top, q.top.indexOf (f x) = p.top.indexOf x := by
      intro x hx
      have hi : p.top.indexOf x < p.top.length := List.indexOf_lt_length.mpr hx
      have hx_eq : p.top[p.top.indexOf x] = x := List.getElem_indexOf hi
      have h2 := List.getElem_of_eq hf1 (by simpa using hi)
      rw [List.getElem_map, hx_eq] at h2
      rw [h2]
      exact List.indexOf_getElem (validIET_top_nodup hq) _ _
    rw [canonical_eq_of_valid hp, canonical_eq_of_valid hq]
    congr 1
    · calc p.top.map (fun x => p.top.indexOf x)
          = p.top.map ((fun x => q.top.indexOf x) ∘ f) :=
            List.map_congr_left fun x hx => (key x hx).symm
        _ = (p.top.map f).map fun x => q.top.indexOf x := (List.map_map ..).symm
        _ = q.top.map fun x => q.top.indexOf x := by rw [hf1]
    · calc p.bottom.map (fun x => p.top.indexOf x)
          = p.bottom.map ((fun x => q.top.indexOf x) ∘ f) :=
            List.map_congr_left fun x hx =>
              (key x ((validIET_mem_iff hp).mp hx)).symm
        _ = (p.bottom.map f).map fun x => q.top.indexOf x := (List.map_map ..).symm
        _ = q.bottom.map fun x => q.top.indexOf x := by rw [hf2]

/-- C8: equality of reduced-mode permutations is independent of the concrete
alphabet: two reduced permutations are equal (equal canonical forms) exactly
when a single renaming carries one row pair to the other; in particular two
reduced permutations built from the same row pattern over different alphabets
are equal, while two labelled permutations with the same rows but differently
ordered alphabets are unequal. -/
theorem reduced_equality_relabeling :
    (∀ p q : Perm ℕ, validIET p → validIET q →
      (canonical p = canonical q ↔
        ∃ f : ℕ → ℕ, p.top.map f = q.top ∧ p.bottom.map f = q.bottom)) ∧
    reducedFromRows [10, 11] [11, 10] [10, 11] =
      reducedFromRows [10, 11] [11, 10] [11, 10] ∧
    labelledWithAlphabet [10, 11] [11, 10] [10, 11] ≠
      labelledWithAlphabet [10, 11] [11, 10] [11, 10] :=
  ⟨canonical_eq_iff_relabeling, by decide, by decide⟩

/-- Witness for C8: the valid permutations `0 1 / 1 0` and `5 7 / 7 5` have
equal canonical forms, so the relabeling between them exists. -/
theorem reduced_equality_relabeling_witness :
    validIET ⟨[0, 1], [1, 0]⟩ ∧ validIET ⟨[5, 7], [7, 5]⟩ ∧
    ∃ f : ℕ → ℕ, [0, 1].map f = [5, 7] ∧ [1, 0].map f = [7, 5] :=
  ⟨by decide, by decide,
   (reduced_equality_relabeling.1 ⟨[0, 1], [1, 0]⟩ ⟨[5, 7], [7, 5]⟩
     (by decide) (by decide)).mp (by decide)⟩

/-! ## The numeric Rauzy move, normalization, and the self-similarity law
(C2) -/

/-- Modelled from the spec: one Rauzy move on a numeric IET (`rauzy_move` of
the IET runtime): the two rightmost intervals are compared, the longer one
wins and its length is reduced by the loser's length while the permutation
undergoes the corresponding combinatorial move; the move is degenerate when
the two rightmost letters coincide or their lengths are equal. -/
def rauzy_move_iet : Iet A K → Option (Iet A K)
  | ⟨perm, len⟩ =>
    perm.top.getLast?.bind fun t =>
      perm.bottom.getLast?.bind fun b =>
        if t = b then none
        else if len b < len t then
          some ⟨applyMove perm .top t b, Function.update len t (len t - len b)⟩
        else if len t < len b then
          some ⟨applyMove perm .bottom b t, Function.update len b (len b - len t)⟩
        else none

/-- Iterated numeric Rauzy move (`rauzy_move(iterations=k)`), failing as soon
as one step is degenerate. -/
def iterRauzy : ℕ → Iet A K → Option (Iet A K)
  | 0, T => some T
  | n + 1, T => (rauzy_move_iet T).bind (iterRauzy n)

section SelfSimilarity

variable [Fintype A]

/-- The total length of a numeric IET (`length()`). -/
def ietLength (T : Iet A K) : K := ∑ a, T.lengths a

/-- Modelled from the spec: `normalize(target)` rescales all lengths by
`target / total`, failing (`NonPositiveLength`) when the total length is not
positive. -/
def normalize (target : K) (T : Iet A K) : Option (Iet A K) :=
  if 0 < ietLength T then
    some ⟨T.perm, fun a => T.lengths a * (target / ietLength T)⟩
  else none

/-- The action of an integer matrix on a vector of lengths in the external
numeric type. -/
def mulVecK (M : Matrix A A ℤ) (u : A → K) : A → K :=
  fun a => ∑ b, (M a b : K) * u b

lemma mulVecK_one (u : A → K) : mulVecK 1 u = u := by
  funext a
  rw [mulVecK]
  have step : ∀ b : A, ((1 : Matrix A A ℤ) a b : K) * u b = if a = b then u b else 0 := by
    intro b
    rw [Matrix.one_apply]
    split <;> simp
  rw [Finset.sum_congr rfl fun b _ => step b, Finset.sum_ite_eq Finset.univ a u]
  simp

lemma mulVecK_mul (M N : Matrix A A ℤ) (u : A → K) :
    mulVecK (M * N) u = mulVecK M (mulVecK N u) := by
  funext a
  rw [mulVecK, mulVecK]
  have step : ∀ b : A, ((M * N) a b : K) * u b =
      ∑ c : A, (M a c : K) * ((N c b : K) * u b) := by
    intro b
    rw [Matrix.mul_apply]
    push_cast
    rw [Finset.sum_mul]
    exact Finset.sum_congr rfl fun c _ => by ring
  rw [Finset.sum_congr rfl fun b _ => step b, Finset.sum_comm]
  exact Finset.sum_congr rfl fun c _ => by
    rw [mulVecK, Finset.mul_sum]

lemma mulVecK_elemMatrix (w l : A) (u : A → K) :
    mulVecK (elemMatrix w l) u = fun a => if a = w then u w + u l else u a := by
  funext a
  rw [mulVecK]
  have step : ∀ b : A, ((elemMatrix w l) a b : K) * u b =
      (if a = b then u b else 0) + (if a = w ∧ b = l then u l else 0) := by
    intro b
    rw [elemMatrix, Matrix.add_apply, Matrix.one_apply, stdBasisMatrix_apply_entry]
    by_cases h1 : a = b <;> by_cases h2 : a = w ∧ b = l
    · rw [if_pos h1, if_pos h2, if_pos h1, if_pos h2, ← h2.2]
      push_cast
      ring
    · rw [if_pos h1, if_neg h2, if_pos h1, if_neg h2]
      push_cast
      ring
    · rw [if_neg h1, if_pos h2, if_neg h1, if_pos h2, ← h2.2]
      push_cast
      ring
    · rw [if_neg h1, if_neg h2, if_neg h1, if_neg h2]
      push_cast
      ring
  rw [Finset.sum_congr rfl fun b _ => step b, Finset.sum_add_distrib,
    Finset.sum_ite_eq Finset.univ a u]
  by_cases haw : a = w
  · rw [Finset.sum_congr rfl fun b _ => by
      rw [show (if a = w ∧ b = l then u l else 0) = (if b = l then u l else 0) by
        simp [haw]]]
    rw [Finset.sum_ite_eq' Finset.univ l fun _ => u l]
    simp [haw]
  · rw [Finset.sum_congr rfl fun b _ => by
      rw [show (if a = w ∧ b = l then u l else 0) = 0 by simp [haw]]]
    simp [haw]

lemma mulVecK_smul (M : Matrix A A ℤ) (c : K) (u : A → K) :
    mulVecK M (fun a => c * u a) = fun a => c * mulVecK M u a := by
  funext a
  rw [mulVecK, mulVecK, Finset.mul_sum]
  exact Finset.sum_congr rfl fun b _ => by ring

lemma movePre_top_inv {p : Perm A} {w l : A} (h : movePre p .top = some (w, l)) :
    p.top.getLast? = some w ∧ p.bottom.getLast? = some l ∧ w ≠ l := by
  rw [movePre] at h
  cases ht : p.top.getLast? with
  | none => rw [ht] at h; cases h
  | some t =>
    cases hb : p.bottom.getLast? with
    | none => rw [ht, hb] at h; cases h
    | some b =>
      rw [ht, hb, Option.some_bind, Option.some_bind] at h
      by_cases htb : t = b
      · rw [if_pos htb] at h; cases h
      · rw [if_neg htb] at h
        obtain ⟨h1, h2⟩ := Prod.mk.injEq .. ▸ Option.some.inj h
        subst h1
        subst h2
        exact ⟨rfl, rfl, htb⟩

lemma movePre_bottom_inv {p : Perm A} {w l : A} (h : movePre p .bottom = some (w, l)) :
    p.top.getLast? = some l ∧ p.bottom.getLast? = some w ∧ w ≠ l := by
  rw [movePre] at h
  cases ht : p.top.getLast? with
  | none => rw [ht] at h; cases h
  | some t =>
    cases hb : p.bottom.getLast? with
    | none => rw [ht, hb] at h; cases h
    | some b =>
      rw [ht, hb, Option.some_bind, Option.some_bind] at h
      by_cases htb : t = b
      · rw [if_pos htb] at h; cases h
      · rw [if_neg htb] at h
        obtain ⟨h1, h2⟩ := Prod.mk.injEq .. ▸ Option.some.inj h
        subst h1
        subst h2
        exact ⟨rfl, rfl, fun he => htb he.symm⟩

lemma rauzy_move_iet_step {p : Perm A} {m : Move} {w l : A}
    (hm : movePre p m = some (w, l)) (u : A → K) (hu : ∀ a, 0 < u a) :
    rauzy_move_iet ⟨p, fun a => if a = w then u w + u l else u a⟩ =
      some ⟨applyMove p m w l, u⟩ := by
  have hupd : Function.update (fun a => if a = w then u w + u l else u a) w
      ((u w + u l) - u l) = u := by
    funext a
    by_cases haw : a = w
    · rw [haw, Function.update_same]
      ring
    · rw [Function.update_noteq haw, if_neg haw]
  have hvw : (if w = w then u w + u l else u w) = u w + u l := if_pos rfl
  cases m with
  | top =>
    obtain ⟨ht, hb, hwl⟩ := movePre_top_inv hm
    have hvl : (if l = w then u w + u l else u l) = u l := if_neg fun he => hwl he.symm
    rw [rauzy_move_iet, ht, hb, Option.some_bind, Option.some_bind]
    beta_reduce
    rw [if_neg hwl, hvl, hvw, if_pos (by linarith [hu w]), hupd]
  | bottom =>
    obtain ⟨ht, hb, hwl⟩ := movePre_bottom_inv hm
    have hvl : (if l = w then u w + u l else u l) = u l := if_neg fun he => hwl he.symm
    rw [rauzy_move_iet, ht, hb, Option.some_bind, Option.some_bind]
    beta_reduce
    rw [if_neg fun he => hwl he.symm, hvl, hvw,
      if_neg (by linarith [hu w]), if_pos (by linarith [hu w]), hupd]

lemma pathData_mulVecK_pos (ms : List Move) (p : Perm A) (d : PathData A)
    (h : pathData p ms = some d) (u : A → K) (hu : ∀ a, 0 < u a) :
    ∀ a, 0 < mulVecK d.matrix u a := by
  induction ms generalizing p d with
  | nil =>
    simp only [pathData, Option.some.injEq] at h
    subst h
    rw [mulVecK_one]
    exact hu
  | cons m ms ih =>
    simp only [pathData] at h
    cases hpre : movePre p m with
    | none => rw [hpre] at h; simp at h
    | some wl =>
      obtain ⟨w, l⟩ := wl
      rw [hpre, Option.some_bind] at h
      cases hrec : pathData (applyMove p m w l) ms with
      | none => rw [hrec] at h; simp at h
      | some d' =>
        rw [hrec] at h
        have h2 := Option.some.inj h
        subst h2
        show ∀ a, 0 < mulVecK (elemMatrix w l * d'.matrix) u a
        rw [mulVecK_mul, mulVecK_elemMatrix]
        intro a
        beta_reduce
        have hp' := ih (applyMove p m w l) d' hrec
        by_cases haw : a = w
        · rw [if_pos haw]
          have := hp' w
          have := hp' l
          linarith
        · rw [if_neg haw]
          exact hp' a

lemma iterRauzy_pathData (ms : List Move) (p : Perm A) (d : PathData A)
    (h : pathData p ms = some d) (u : A → K) (hu : ∀ a, 0 < u a) :
    iterRauzy ms.length ⟨p, mulVecK d.matrix u⟩ = some ⟨d.vertex, u⟩ := by
  induction ms generalizing p d with
  | nil =>
    simp only [pathData, Option.some.injEq] at h
    subst h
    rw [mulVecK_one]
    rfl
  | cons m ms ih =>
    simp only [pathData] at h
    cases hpre : movePre p m with
    | none => rw [hpre] at h; simp at h
    | some wl =>
      obtain ⟨w, l⟩ := wl
      rw [hpre, Option.some_bind] at h
      cases hrec : pathData (applyMove p m w l) ms with
      | none => rw [hrec] at h; simp at h
      | some d' =>
        rw [hrec] at h
        have h2 := Option.some.inj h
        subst h2
        show iterRauzy (ms.length + 1) ⟨p, mulVecK (elemMatrix w l * d'.matrix) u⟩ =
          some ⟨d'.vertex, u⟩
        rw [mulVecK_mul, mulVecK_elemMatrix, iterRauzy,
          rauzy_move_iet_step hpre (mulVecK d'.matrix u)
            (pathData_mulVecK_pos ms _ d' hrec u hu),
          Option.some_bind]
        exact ih (applyMove p m w l) d' hrec

/-- C2 (amended): for every loop-and-full path `g` of length `k` starting at
permutation `p` with path matrix `M`, and every positive length vector `v`
which is an eigenvector of `M` with positive eigenvalue (`M·v = c·v`, `c > 0`;
in the source's doctests `v` is the dominant eigenvector supplied by the
external eigen-solver), the IET built from `(p, v)`, after `k` applications of
`rauzy_move` and normalization to total length 1, equals the original IET
normalized to total length 1. -/
theorem rauzy_move_self_similarity (p : Perm A) (ms : List Move) (d : PathData A)
    (v : A → K) (c : K)
    (hpd : pathData p ms = some d) (hloop : d.vertex = p)
    (hfull : d.losers = Finset.univ)
    (hv : ∀ a, 0 < v a) (hc : 0 < c) (heig : mulVecK d.matrix v = fun a => c * v a) :
    (iterRauzy ms.length ⟨p, v⟩).bind (normalize 1) = normalize 1 ⟨p, v⟩ := by
  have hc0 : c ≠ 0 := ne_of_gt hc
  have hcinv : 0 < c⁻¹ := inv_pos.mpr hc
  have hu : ∀ a, 0 < c⁻¹ * v a := fun a => mul_pos hcinv (hv a)
  have huv : mulVecK d.matrix (fun a => c⁻¹ * v a) = v := by
    rw [mulVecK_smul, heig]
    funext a
    field_simp
  have hiter := iterRauzy_pathData ms p d hpd (fun a => c⁻¹ * v a) hu
  rw [huv, hloop] at hiter
  rw [hiter, Option.some_bind]
  rw [normalize, normalize, ietLength, ietLength]
  simp only
  have htot : (∑ a : A, c⁻¹ * v a) = c⁻¹ * ∑ a : A, v a := by
    rw [Finset.mul_sum]
  by_cases hpos : 0 < ∑ a : A, v a
  · have hpos' : 0 < ∑ a : A, c⁻¹ * v a := by
      rw [htot]
      exact mul_pos hcinv hpos
    rw [if_pos hpos', if_pos hpos]
    congr 1
    refine congrArg (Iet.mk p) ?_
    funext a
    rw [htot]
    field_simp
  · have hpos' : ¬ 0 < ∑ a : A, c⁻¹ * v a := by
      rw [htot]
      push_neg at hpos
      intro habs
      nlinarith
    rw [if_neg hpos', if_neg hpos]

end SelfSimilarity

/-- The path data of the two-edge full loop `t, b` at `a b / b a`, with path
matrix `[[1,1],[1,2]]`. -/
def tbLoop : PathData (Fin 2) :=
  (pathData (⟨[0, 1], [1, 0]⟩ : Perm (Fin 2)) [Move.top, Move.bottom]).get (by decide)

/-- Counterexample for C2: the claim's hypothesis `v = M·v` is never
satisfiable: for the full loop `t, b` at `a b / b a` no positive length vector
is fixed by the path matrix (a full loop strictly expands positive vectors), so
the vector the spec asks the eigen-solver for is a `M·v = λ·v` eigenvector,
not a fixed point. -/
theorem no_positive_fixed_vector_of_tbLoop :
    ¬ ∃ v : Fin 2 → ℝ, (∀ a, 0 < v a) ∧ mulVecK tbLoop.matrix v = v := by
  rintro ⟨v, hv, hfix⟩
  have h00 : tbLoop.matrix 0 0 = 1 := by decide
  have h01 : tbLoop.matrix 0 1 = 1 := by decide
  have h0 := congrFun hfix 0
  rw [mulVecK, Fin.sum_univ_two, h00, h01] at h0
  push_cast at h0
  have := hv 1
  linarith

/-- Witness for C2: the golden-ratio length vector `(1, (1+√5)/2)` on
`a b / b a` is a positive eigenvector of the `t, b` loop matrix with
eigenvalue `(3+√5)/2 > 0`, and the IET it defines returns to itself after the
two Rauzy moves, up to normalization. -/
theorem rauzy_move_self_similarity_witness :
    (iterRauzy 2 ⟨(⟨[0, 1], [1, 0]⟩ : Perm (Fin 2)),
        fun a => if a = 0 then (1 : ℝ) else (1 + Real.sqrt 5) / 2⟩).bind (normalize 1) =
      normalize 1 ⟨⟨[0, 1], [1, 0]⟩,
        fun a => if a = 0 then (1 : ℝ) else (1 + Real.sqrt 5) / 2⟩ := by
  have hs5 : Real.sqrt 5 * Real.sqrt 5 = 5 := Real.mul_self_sqrt (by norm_num)
  have hs5pos : (0 : ℝ) < Real.sqrt 5 := Real.sqrt_pos.mpr (by norm_num)
  have h00 : tbLoop.matrix 0 0 = 1 := by decide
  have h01 : tbLoop.matrix 0 1 = 1 := by decide
  have h10 : tbLoop.matrix 1 0 = 1 := by decide
  have h11 : tbLoop.matrix 1 1 = 2 := by decide
  refine rauzy_move_self_similarity (⟨[0, 1], [1, 0]⟩ : Perm (Fin 2))
    [Move.top, Move.bottom] tbLoop _ ((3 + Real.sqrt 5) / 2)
    (Option.some_get (by decide)).symm (by decide) (by decide) ?_ (by positivity) ?_
  · intro a
    fin_cases a
    · norm_num
    · simp only [Fin.mk_one]
      rw [if_neg (by decide)]
      positivity
  · funext a
    rw [mulVecK]
    fin_cases a
    · beta_reduce
      simp only [Fin.zero_eta, Fin.mk_one]
      rw [Fin.sum_univ_two, h00, h01]
      norm_num
      nlinarith [hs5]
    · beta_reduce
      simp only [Fin.zero_eta, Fin.mk_one]
      rw [Fin.sum_univ_two, h10, h11]
      norm_num
      nlinarith [hs5]

end SurfaceDynamics
